import Mathlib

/-!
Verification of the HMGPT conversational-simulation script
(`hmgpt_explore.py`) against its natural-language specification.

The script's pure core is shallowly embedded here:
* the line wrapper `split_string` (strings as `List Char`, the Python
  `ValueError` as `none`),
* the space-delimited tokenizer used to state the wrapper's precondition,
* the termination-keyword normalization from the dialogue loop condition,
* conversation messages, request assembly, transcript rendering,
* one dialogue-loop turn with a fallible generation capability,
* the weighted scenario selection (`random.choices` with an explicit
  random draw `u`), and the three-step post-session evaluation chain.
-/

namespace HMGPT

/-- Last index of a space character in a list of characters; models Python
`str.rfind(" ")`, with `none` for the `-1` "not found" result. -/
def rfindSp : List Char → Option Nat
  | [] => none
  | c :: cs =>
    match rfindSp cs with
    | some i => some (i + 1)
    | none => if c = ' ' then some 0 else none

/-- One-for-one translation of the `while` loop of `split_string`
(`hmgpt_explore.py` lines 63-73).  `remaining` is the Python variable of
the same name; the loop guard `len(remaining) > (LINE_LENGTH-1)` is kept
as an integer comparison so that `w = 0` behaves as in Python.  The
`fuel` argument merely bounds the number of iterations: every iteration
strictly shortens `remaining`, so `remaining.length + 1` iterations
always suffice (`split_string` below passes exactly that), and the
fuel-exhaustion branch is unreachable from `split_string`.
`none` models the `ValueError` raised when no space is found. -/
def splitLoop : Nat → List Char → Nat → Option (List (List Char))
  | 0, _, _ => none
  | fuel + 1, remaining, w =>
    if (remaining.length : Int) > (w : Int) - 1 then
      match rfindSp (remaining.take w) with
      | none => none
      | some i =>
        match splitLoop fuel (remaining.drop (i + 1)) w with
        | none => none
        | some rest => some (remaining.take i :: rest)
    else
      some [remaining]

/-- `split_string(l, LINE_LENGTH)` from `hmgpt_explore.py`: splits a long
string into lines, breaking only at spaces; `none` models the
`ValueError` ("LINE_LENGTH too small to split the string without
breaking words."). -/
def split_string (l : List Char) (w : Nat) : Option (List (List Char)) :=
  splitLoop (l.length + 1) l w

/-- The script's default line width (`LINE_LENGTH=80`). -/
def LINE_LENGTH : Nat := 80

/-- Fuel-bounded maximal-run tokenizer; `tokens` below instantiates the
fuel.  The fuel strictly decreases at each step and `l.length` always
suffices. -/
def tokensGo : Nat → List Char → List (List Char)
  | 0, _ => []
  | fuel + 1, l =>
    match l with
    | [] => []
    | c :: cs =>
      if c = ' ' then tokensGo fuel cs
      else (c :: cs.takeWhile (fun d => d ≠ ' ')) :: tokensGo fuel (cs.dropWhile (fun d => d ≠ ' '))

/-- The space-delimited tokens of a string: its maximal runs of
non-space characters.  This renders the spec's "whitespace-delimited
tokens" for the wrapper's contract; the code in `split_string` breaks
lines only at the space character, so tokens are delimited by spaces. -/
def tokens (l : List Char) : List (List Char) := tokensGo l.length l

/-- Joining a list of lines with single spaces (the reconstruction
operation named by the wrapper's round-trip guarantee). -/
def joinSp : List (List Char) → List Char
  | [] => []
  | [x] => x
  | x :: y :: r => x ++ ' ' :: joinSp (y :: r)

-- Termination-keyword normalization (the dialogue-loop condition,
-- `hmgpt_explore.py` line 230).

/-- ASCII whitespace as recognized by Python `str.strip()`. -/
def pySpace (c : Char) : Bool :=
  c == ' ' || c == '\t' || c == '\n' || c == '\r' || c == '\x0B' || c == '\x0C'

/-- Python `str.strip()` (the script's inputs are ASCII). -/
def pyStrip (l : List Char) : List Char :=
  ((l.dropWhile pySpace).reverse.dropWhile pySpace).reverse

/-- The normalization applied to user input by the loop condition
`user_input.lower().replace("\"","").replace("\x27","").strip()`:
lower-case, delete every double-quote character, delete every
single-quote character, strip surrounding whitespace.  `Char.toLower`
agrees with Python `str.lower` on ASCII. -/
def normalize_input (l : List Char) : List Char :=
  pyStrip (((l.map Char.toLower).filter (fun c => c != '"')).filter (fun c => c != '\''))

/-- The configured termination keyword (`end_keyword = "done"`). -/
def end_keyword : List Char := ['d', 'o', 'n', 'e']

/-- The termination check: the dialogue loop exits exactly when the
normalized input equals the configured keyword. -/
def matches_end (input keyword : List Char) : Bool :=
  normalize_input input == keyword

-- Conversation messages and request assembly.

/-- A chat message: the `role`/`content` dictionaries the script builds. -/
structure Message where
  role : String
  content : String
deriving DecidableEq, Repr

/-- `new_conversation(system_content)` (lines 125-137). -/
def new_conversation (system_content : String) : List Message :=
  [⟨"system", system_content⟩]

/-- `user_line(user_line)` (lines 140-152). -/
def user_line (s : String) : List Message := [⟨"user", s⟩]

/-- `asst_line(asst_line)` (lines 155-167). -/
def asst_line (s : String) : List Message := [⟨"assistant", s⟩]

/-- `get_transcript(talk_hx)` (lines 170-190): user messages prefixed
`"Student: "`, all other roles prefixed `"Patient: "`, each followed by
a blank line. -/
def get_transcript : List Message → String
  | [] => ""
  | m :: rest =>
    (if m.role = "user" then "Student: " ++ m.content ++ "\n\n"
     else "Patient: " ++ m.content ++ "\n\n") ++ get_transcript rest

/-- The request list sent to the generation capability each turn:
`talk_framing + talk_hx + talk_reminders` (lines 241-243). -/
def assemble_request (talk_framing talk_hx talk_reminders : List Message) : List Message :=
  talk_framing ++ talk_hx ++ talk_reminders

/-- One iteration of the dialogue-loop body (lines 230-261) with the
generation capability as an explicit fallible function.  The script
appends the user line to `talk_hx` *before* the API call and has no
exception handler, so an API error propagates out of the loop;
`Except.error` carries the error together with the value of the
`talk_hx` global at that point (user line already appended). -/
def run_turn {ε : Type} (gen : List Message → Except ε String)
    (talk_framing talk_reminders talk_hx : List Message) (user_input : String) :
    Except (ε × List Message) (List Message) :=
  let next_line := user_line user_input
  let hx1 := talk_hx ++ next_line
  match gen (assemble_request talk_framing hx1 talk_reminders) with
  | Except.error e => Except.error (e, hx1)
  | Except.ok reply => Except.ok (hx1 ++ asst_line reply)

-- Weighted scenario selection (`choose_patient`, lines 100-123).

/-- A scenario record (one YAML document of `patient-beta.yaml`): the
fields the script reads. -/
structure Scenario where
  id : String
  framing : String
  reminders : String
  summary : String
  prob_wt : ℚ
deriving DecidableEq, Repr

/-- `prob_wts = [p['prob_wt'] for p in patients]` (line 121). -/
def weightsOf (patients : List Scenario) : List ℚ :=
  patients.map (fun p => p.prob_wt)

/-- Total of the selection weights. -/
def totalWt (patients : List Scenario) : ℚ := (weightsOf patients).sum

/-- Sum of the first `i` weights. -/
def wsum (ws : List ℚ) (i : Nat) : ℚ := (ws.take i).sum

/-- `itertools.accumulate` of the weights, as computed inside
`random.choices`. -/
def cumWeights (ws : List ℚ) : List ℚ :=
  (List.range ws.length).map (fun k => wsum ws (k + 1))

/-- `bisect.bisect_right` on a nondecreasing list: the number of entries
`≤ x`.  `random.choices` only calls it on the nondecreasing
cumulative-weight list. -/
def bisectR (a : List ℚ) (x : ℚ) : Nat :=
  a.countP (fun y => decide (y ≤ x))

/-- The index drawn by `choose_patient` (line 122):
`random.choices(range(len(patients)), weights=prob_wts, k=1)` with the
uniform draw `random()` made explicit as `u`.  `random.choices` computes
the cumulative weights, fails on an empty population (`IndexError` on
`cum_weights[-1]`) and on a nonpositive total (`ValueError`), and
otherwise returns `bisect(cum_weights, u * total, 0, n - 1)`; both
failure modes are `none` here. -/
def choose_patient_idx (patients : List Scenario) (u : ℚ) : Option Nat :=
  let prob_wts := weightsOf patients
  let cum := cumWeights prob_wts
  match cum.getLast? with
  | none => none
  | some total =>
    if total ≤ 0 then none
    else some (bisectR (cum.take (patients.length - 1)) (u * total))

/-- `choose_patient(patients)` (lines 100-123): `patients[pt[0]]`. -/
def choose_patient (patients : List Scenario) (u : ℚ) : Option Scenario :=
  (choose_patient_idx patients u).bind (fun i => patients[i]?)

-- The post-session evaluation chain (lines 275-311).

/-- The evaluation framing text (line 275, verbatim). -/
def eval_framing_text : String :=
  "Summarize the following interaction between a me and a standardized patient."

/-- `eval_setup` (line 275). -/
def eval_setup : List Message := new_conversation eval_framing_text

/-- `eval_summary`'s content (lines 288-290); embeds the scenario's
ground-truth summary verbatim. -/
def compare_prompt (summary : String) : String :=
  "The actual patient summary is as follows:  " ++ summary ++
    " How does the student interaction compare with the actual patient summary?"

/-- `final_question`'s content (line 306, verbatim). -/
def final_question_text : String :=
  "Answer only \x27yes\x27 or \x27no\x27, was the student interaction consistent with the actual patient summary?"

/-- `final_question` (line 306). -/
def final_question : List Message := user_line final_question_text

/-- The three-request evaluation chain (lines 275-311) with the
generation capability explicit: returns the request message lists in
the order they are issued, together with the final reply. -/
def run_evaluation (gen : List Message → String) (transcript summary : String) :
    List (List Message) × String :=
  let eval_transcript := user_line transcript
  let req1 := eval_setup ++ eval_transcript
  let gpt_summary := asst_line (gen req1)
  let eval_summary := user_line (compare_prompt summary)
  let req2 := eval_setup ++ eval_transcript ++ gpt_summary ++ eval_summary
  let compare_response := asst_line (gen req2)
  let req3 := eval_setup ++ eval_transcript ++ gpt_summary ++ eval_summary ++
    compare_response ++ final_question
  ([req1, req2, req3], gen req3)

-- Concrete data used in witness instances.

/-- A concrete scenario with weight 1. -/
def scenA : Scenario := ⟨"patient-1", "fa", "ra", "sa", 1⟩

/-- A concrete scenario with weight 2. -/
def scenB : Scenario := ⟨"patient-2", "fb", "rb", "sb", 2⟩

/-- A generation capability that always fails. -/
def failGen : List Message → Except Unit String := fun _ => Except.error ()

-- Basic facts about `rfindSp`.

theorem rfindSp_eq_none {l : List Char} (h : rfindSp l = none) : ∀ c ∈ l, c ≠ ' ' := by
  induction l with
  | nil => intro c hc; cases hc
  | cons c cs ih =>
    intro d hd
    unfold rfindSp at h
    cases hfind : rfindSp cs with
    | some i => rw [hfind] at h; cases h
    | none =>
      rw [hfind] at h
      by_cases hc : c = ' '
      · simp [hc] at h
      · rcases List.mem_cons.mp hd with hd1 | hd1
        · exact hd1 ▸ hc
        · exact ih hfind d hd1

theorem rfindSp_some {l : List Char} {i : Nat} (h : rfindSp l = some i) :
    i < l.length ∧ l.get? i = some ' ' := by
  induction l generalizing i with
  | nil => cases h
  | cons c cs ih =>
    unfold rfindSp at h
    cases hfind : rfindSp cs with
    | some j =>
      rw [hfind] at h
      injection h with h
      subst h
      obtain ⟨h1, h2⟩ := ih hfind
      exact ⟨Nat.succ_lt_succ h1, h2⟩
    | none =>
      rw [hfind] at h
      by_cases hc : c = ' '
      · simp only [hc, if_pos rfl] at h
        injection h with h
        subst h
        exact ⟨Nat.succ_pos _, by simp [hc]⟩
      · simp [hc] at h

theorem rfindSp_ne_none {l : List Char} {c : Char} (hc : c ∈ l) (hsp : c = ' ') :
    rfindSp l ≠ none := by
  intro h
  exact rfindSp_eq_none h c hc hsp

-- Decomposing a string at a space character.

theorem eq_take_cons_drop {l : List Char} {i : Nat} (h1 : i < l.length)
    (h2 : l.get? i = some ' ') : l = l.take i ++ ' ' :: l.drop (i + 1) := by
  have hg : l[i]? = some ' ' := by
    rw [List.get?_eq_getElem?] at h2
    exact h2
  have hi : l[i] = ' ' := by
    have := List.getElem?_eq_getElem h1
    rw [this] at hg
    injection hg
  conv_lhs => rw [← List.take_append_drop i l]
  rw [List.drop_eq_getElem_cons h1, hi]

-- `splitLoop` always returns a non-empty list of lines on success.

theorem splitLoop_ne_nil {fuel : Nat} {l : List Char} {w : Nat} {lines : List (List Char)}
    (h : splitLoop fuel l w = some lines) : lines ≠ [] := by
  match fuel with
  | 0 => cases h
  | fuel + 1 =>
    unfold splitLoop at h
    split at h
    next hc =>
      split at h
      next hf => cases h
      next i hf =>
        split at h
        next hrec => cases h
        next rest hrec =>
          injection h with h
          subst h
          simp
    next hc =>
      injection h with h
      subst h
      simp

theorem joinSp_cons {x : List Char} {rest : List (List Char)} (h : rest ≠ []) :
    joinSp (x :: rest) = x ++ ' ' :: joinSp rest := by
  cases rest with
  | nil => exact absurd rfl h
  | cons y r => rfl

/-- Joining the output lines of the wrapper loop with single spaces gives
back exactly the input string: each iteration removes exactly the one
space character it breaks at. -/
theorem splitLoop_join : ∀ (fuel : Nat) (l : List Char) (w : Nat) (lines : List (List Char)),
    splitLoop fuel l w = some lines → joinSp lines = l := by
  intro fuel
  induction fuel with
  | zero => intro l w lines h; cases h
  | succ fuel ih =>
    intro l w lines h
    unfold splitLoop at h
    split at h
    next hc =>
      split at h
      next hf => cases h
      next i hf =>
        split at h
        next hrec => cases h
        next rest hrec =>
          injection h with h
          subst h
          obtain ⟨hilen, hisp⟩ := rfindSp_some hf
          rw [List.length_take] at hilen
          have hiw : i < l.length := by omega
          have hg : l.get? i = some ' ' := by
            rw [List.get?_take (by omega : i < w)] at hisp
            exact hisp
          rw [joinSp_cons (splitLoop_ne_nil hrec), ih _ _ _ hrec]
          exact (eq_take_cons_drop hiw hg).symm
    next hc =>
      injection h with h
      subst h
      rfl

/-- On success every output line of the wrapper loop has length at most
`w - 1`, and the width is at least 1. -/
theorem splitLoop_bound : ∀ (fuel : Nat) (l : List Char) (w : Nat) (lines : List (List Char)),
    splitLoop fuel l w = some lines → 1 ≤ w ∧ ∀ x ∈ lines, x.length ≤ w - 1 := by
  intro fuel
  induction fuel with
  | zero => intro l w lines h; cases h
  | succ fuel ih =>
    intro l w lines h
    unfold splitLoop at h
    split at h
    next hc =>
      split at h
      next hf => cases h
      next i hf =>
        split at h
        next hrec => cases h
        next rest hrec =>
          injection h with h
          subst h
          obtain ⟨hw, hrest⟩ := ih _ _ _ hrec
          refine ⟨hw, ?_⟩
          intro x hx
          rcases List.mem_cons.mp hx with hx1 | hx1
          · subst hx1
            have hilen := rfindSp_some hf |>.1
            rw [List.length_take] at hilen
            rw [List.length_take]
            omega
          · exact hrest x hx1
    next hc =>
      injection h with h
      subst h
      push_neg at hc
      have h0 : (0 : Int) ≤ (l.length : Int) := Int.ofNat_nonneg _
      constructor
      · omega
      · intro x hx
        rcases List.mem_cons.mp hx with hx1 | hx1
        · subst hx1; omega
        · cases hx1

-- The tokenizer: stability in the fuel, unfolding equation, and the
-- facts about tokens needed for the wrapper's contract.

theorem dropWhile_length_le (p : Char → Bool) (l : List Char) :
    (l.dropWhile p).length ≤ l.length :=
  (List.dropWhile_sublist p (l := l)).length_le

theorem takeWhile_length_le (p : Char → Bool) (l : List Char) :
    (l.takeWhile p).length ≤ l.length :=
  (List.takeWhile_sublist p (l := l)).length_le

theorem tokensGo_eq_of_le : ∀ (fuel1 : Nat) (l : List Char), l.length ≤ fuel1 →
    ∀ (fuel2 : Nat), l.length ≤ fuel2 → tokensGo fuel1 l = tokensGo fuel2 l := by
  intro fuel1
  induction fuel1 with
  | zero =>
    intro l hl fuel2 h2
    have hnil : l = [] := List.eq_nil_of_length_eq_zero (Nat.le_zero.mp hl)
    subst hnil
    cases fuel2 <;> rfl
  | succ fuel ih =>
    intro l hl fuel2 h2
    cases l with
    | nil => cases fuel2 <;> rfl
    | cons c cs =>
      cases fuel2 with
      | zero => simp at h2
      | succ fuel2 =>
        simp only [tokensGo]
        by_cases hc : c = ' '
        · rw [if_pos hc, if_pos hc]
          exact ih cs (by simpa using hl) fuel2 (by simpa using h2)
        · rw [if_neg hc, if_neg hc]
          have hd1 : (cs.dropWhile (fun d => d ≠ ' ')).length ≤ fuel := by
            have := dropWhile_length_le (fun d => decide (d ≠ ' ')) cs
            simp only [List.length_cons] at hl
            omega
          have hd2 : (cs.dropWhile (fun d => d ≠ ' ')).length ≤ fuel2 := by
            have := dropWhile_length_le (fun d => decide (d ≠ ' ')) cs
            simp only [List.length_cons] at h2
            omega
          rw [ih _ hd1 fuel2 hd2]

theorem tokens_nil : tokens [] = [] := rfl

theorem tokens_cons (c : Char) (cs : List Char) :
    tokens (c :: cs) =
      if c = ' ' then tokens cs
      else (c :: cs.takeWhile (fun d => d ≠ ' ')) :: tokens (cs.dropWhile (fun d => d ≠ ' ')) := by
  show tokensGo (cs.length + 1) (c :: cs) = _
  simp only [tokensGo]
  by_cases hc : c = ' '
  · rw [if_pos hc, if_pos hc]
    rfl
  · rw [if_neg hc, if_neg hc]
    have hd : (cs.dropWhile (fun d => decide (d ≠ ' '))).length ≤ cs.length :=
      dropWhile_length_le _ cs
    congr 1
    exact tokensGo_eq_of_le cs.length _ hd _ (le_refl _)

theorem tokens_length_le : ∀ (n : Nat) (l : List Char), l.length ≤ n →
    ∀ t ∈ tokens l, t.length ≤ l.length := by
  intro n
  induction n with
  | zero =>
    intro l hl t ht
    have hnil : l = [] := List.eq_nil_of_length_eq_zero (Nat.le_zero.mp hl)
    subst hnil
    cases ht
  | succ n ih =>
    intro l hl t ht
    cases l with
    | nil => cases ht
    | cons c cs =>
      rw [tokens_cons] at ht
      by_cases hc : c = ' '
      · rw [if_pos hc] at ht
        have := ih cs (by simpa using hl) t ht
        simp only [List.length_cons]
        omega
      · rw [if_neg hc] at ht
        rcases List.mem_cons.mp ht with ht1 | ht1
        · subst ht1
          simp only [List.length_cons]
          have := takeWhile_length_le (fun d => decide (d ≠ ' ')) cs
          omega
        · have hd : (cs.dropWhile (fun d => d ≠ ' ')).length ≤ n := by
            have := dropWhile_length_le (fun d => decide (d ≠ ' ')) cs
            simp only [List.length_cons] at hl
            omega
          have := ih _ hd t ht1
          have hdl := dropWhile_length_le (fun d => decide (d ≠ ' ')) cs
          simp only [List.length_cons]
          omega

theorem takeWhile_append_all {p : Char → Bool} :
    ∀ (a l : List Char), (∀ c ∈ a, p c = true) →
      (a ++ l).takeWhile p = a ++ l.takeWhile p := by
  intro a
  induction a with
  | nil => intro l _; rfl
  | cons c a0 ih =>
    intro l hall
    have hc : p c = true := hall c (List.mem_cons_self c a0)
    simp only [List.cons_append, List.takeWhile_cons_of_pos hc]
    rw [ih l (fun d hd => hall d (List.mem_cons_of_mem c hd))]

theorem dropWhile_append_all {p : Char → Bool} :
    ∀ (a l : List Char), (∀ c ∈ a, p c = true) →
      (a ++ l).dropWhile p = l.dropWhile p := by
  intro a
  induction a with
  | nil => intro l _; rfl
  | cons c a0 ih =>
    intro l hall
    have hc : p c = true := hall c (List.mem_cons_self c a0)
    simp only [List.cons_append, List.dropWhile_cons_of_pos hc]
    exact ih l (fun d hd => hall d (List.mem_cons_of_mem c hd))

theorem dropWhile_head_false {p : Char → Bool} :
    ∀ (l : List Char) {e : Char} {d0 : List Char},
      l.dropWhile p = e :: d0 → p e = false := by
  intro l
  induction l with
  | nil => intro e d0 h; cases h
  | cons c cs ih =>
    intro e d0 h
    by_cases hc : p c
    · rw [List.dropWhile_cons_of_pos hc] at h
      exact ih h
    · rw [List.dropWhile_cons_of_neg hc] at h
      injection h with h1 h2
      subst h1
      exact Bool.not_eq_true _ ▸ (by simpa using hc)

/-- Tokens are invariant under splitting the string at a space: the
tokens of `a ++ ' ' :: b` are the tokens of `a` followed by those of
`b`. -/
theorem tokens_append_space : ∀ (n : Nat) (a b : List Char), a.length ≤ n →
    tokens (a ++ ' ' :: b) = tokens a ++ tokens b := by
  intro n
  induction n with
  | zero =>
    intro a b ha
    have hnil : a = [] := List.eq_nil_of_length_eq_zero (Nat.le_zero.mp ha)
    subst hnil
    rw [List.nil_append, tokens_cons, if_pos rfl, tokens_nil, List.nil_append]
  | succ n ih =>
    intro a b ha
    cases a with
    | nil => rw [List.nil_append, tokens_cons, if_pos rfl, tokens_nil, List.nil_append]
    | cons c a0 =>
      by_cases hc : c = ' '
      · subst hc
        simp only [List.cons_append]
        rw [tokens_cons, if_pos rfl, tokens_cons, if_pos rfl]
        exact ih a0 b (by simpa using ha)
      · simp only [List.cons_append]
        rw [tokens_cons, if_neg hc, tokens_cons, if_neg hc]
        have hsplit := List.takeWhile_append_dropWhile
          (p := fun d => decide (d ≠ ' ')) (l := a0)
        set t := a0.takeWhile (fun d => decide (d ≠ ' ')) with htdef
        set d := a0.dropWhile (fun d => decide (d ≠ ' ')) with hddef
        have htall : ∀ x ∈ t, decide (x ≠ ' ') = true := by
          intro x hx
          rw [htdef] at hx
          have := List.mem_takeWhile_imp hx
          simpa using this
        cases hd : d with
        | nil =>
          have ha0 : a0 = t := by rw [← hsplit, hd, List.append_nil]
          have htake : (a0 ++ ' ' :: b).takeWhile (fun d => decide (d ≠ ' ')) = t := by
            rw [ha0, takeWhile_append_all t (' ' :: b) htall,
              List.takeWhile_cons_of_neg (by simp), List.append_nil]
          have hdrop : (a0 ++ ' ' :: b).dropWhile (fun d => decide (d ≠ ' ')) = ' ' :: b := by
            rw [ha0, dropWhile_append_all t (' ' :: b) htall,
              List.dropWhile_cons_of_neg (by simp)]
          rw [htake, hdrop, tokens_cons, if_pos rfl, tokens_nil]
          rfl
        | cons e d0 =>
          have he : e = ' ' := by
            have := dropWhile_head_false (p := fun d => decide (d ≠ ' ')) a0
              (by rw [← hddef, hd])
            simpa using this
          subst he
          have ha0 : a0 = t ++ ' ' :: d0 := by rw [← hsplit, hd]
          have htake : (a0 ++ ' ' :: b).takeWhile (fun d => decide (d ≠ ' ')) = t := by
            rw [ha0, List.append_assoc, List.cons_append,
              takeWhile_append_all t _ htall,
              List.takeWhile_cons_of_neg (by simp), List.append_nil]
          have hdrop : (a0 ++ ' ' :: b).dropWhile (fun d => decide (d ≠ ' ')) =
              ' ' :: (d0 ++ ' ' :: b) := by
            rw [ha0, List.append_assoc, List.cons_append,
              dropWhile_append_all t _ htall,
              List.dropWhile_cons_of_neg (by simp)]
          have hd0len : d0.length ≤ n := by
            have hlen : a0.length = t.length + d0.length + 1 := by
              rw [ha0]
              simp only [List.length_append, List.length_cons]
              omega
            simp only [List.length_cons] at ha
            omega
          rw [htake, hdrop, tokens_cons, if_pos rfl, ih d0 b hd0len,
            tokens_cons, if_pos rfl]
          rfl

theorem le_length_takeWhile_of_take {p : Char → Bool} :
    ∀ (w : Nat) (l : List Char), w ≤ l.length → (∀ c ∈ l.take w, p c = true) →
      w ≤ (l.takeWhile p).length := by
  intro w
  induction w with
  | zero => intro l _ _; exact Nat.zero_le _
  | succ w ih =>
    intro l hlen hall
    cases l with
    | nil => simp at hlen
    | cons c cs =>
      have hc : p c = true := by
        apply hall
        rw [List.take_succ_cons]
        exact List.mem_cons_self c _
      rw [List.takeWhile_cons_of_pos hc]
      simp only [List.length_cons]
      refine Nat.succ_le_succ (ih cs (by simpa using hlen) ?_)
      intro d hd
      apply hall
      rw [List.take_succ_cons]
      exact List.mem_cons_of_mem c hd

/-- If some token of the input has length at least `w`, the wrapper loop
always fails (the `ValueError` branch): the window of `w` characters
eventually sits inside that token and contains no space. -/
theorem splitLoop_none_of_long_token : ∀ (fuel : Nat) (l : List Char) (w : Nat),
    (∃ t ∈ tokens l, w ≤ t.length) → splitLoop fuel l w = none := by
  intro fuel
  induction fuel with
  | zero => intro l w _; rfl
  | succ fuel ih =>
    intro l w h
    obtain ⟨t, ht, hwt⟩ := h
    have htl : t.length ≤ l.length := tokens_length_le l.length l (le_refl _) t ht
    have hcond : (l.length : Int) > (w : Int) - 1 := by omega
    unfold splitLoop
    rw [if_pos hcond]
    cases hf : rfindSp (l.take w) with
    | none => rfl
    | some i =>
      obtain ⟨hilen, hisp⟩ := rfindSp_some hf
      rw [List.length_take] at hilen
      have hiw : i < w := by omega
      have hil : i < l.length := by omega
      have hg : l.get? i = some ' ' := by
        rw [List.get?_take hiw] at hisp
        exact hisp
      have hsplit := eq_take_cons_drop hil hg
      have htoks : tokens l = tokens (l.take i) ++ tokens (l.drop (i + 1)) := by
        conv_lhs => rw [hsplit]
        exact tokens_append_space (l.take i).length (l.take i) (l.drop (i + 1)) (le_refl _)
      rw [htoks] at ht
      rcases List.mem_append.mp ht with ht1 | ht1
      · have := tokens_length_le (l.take i).length (l.take i) (le_refl _) t ht1
        rw [List.length_take] at this
        omega
      · have hnone := ih (l.drop (i + 1)) w ⟨t, ht1, hwt⟩
        simp [hnone]

/-- If every token of the input is shorter than `w` (and `w ≥ 1`), the
wrapper loop succeeds: every `w`-character window of the remaining text
contains a space to break at. -/
theorem splitLoop_isSome_of_short_tokens : ∀ (fuel : Nat) (l : List Char) (w : Nat),
    l.length < fuel → 1 ≤ w → (∀ t ∈ tokens l, t.length < w) →
      ∃ lines, splitLoop fuel l w = some lines := by
  intro fuel
  induction fuel with
  | zero => intro l w h _ _; omega
  | succ fuel ih =>
    intro l w hfuel hw h
    by_cases hcond : (l.length : Int) > (w : Int) - 1
    · have hlw : w ≤ l.length := by omega
      cases hf : rfindSp (l.take w) with
      | none =>
        exfalso
        have hnosp : ∀ c ∈ l.take w, c ≠ ' ' := rfindSp_eq_none hf
        cases l with
        | nil => simp at hlw; omega
        | cons c cs =>
          have hcsp : c ≠ ' ' := by
            apply hnosp
            cases w with
            | zero => omega
            | succ w0 =>
              rw [List.take_succ_cons]
              exact List.mem_cons_self c _
          have htw : w ≤ ((c :: cs).takeWhile (fun d => decide (d ≠ ' '))).length := by
            apply le_length_takeWhile_of_take w (c :: cs) hlw
            intro d hd
            simpa using hnosp d hd
          rw [List.takeWhile_cons_of_pos (by simpa using hcsp)] at htw
          have ht0 : (c :: cs.takeWhile (fun d => decide (d ≠ ' '))) ∈ tokens (c :: cs) := by
            rw [tokens_cons, if_neg hcsp]
            exact List.mem_cons_self _ _
          have := h _ ht0
          simp only [List.length_cons] at htw this
          omega
      | some i =>
        obtain ⟨hilen, hisp⟩ := rfindSp_some hf
        rw [List.length_take] at hilen
        have hiw : i < w := by omega
        have hil : i < l.length := by omega
        have hg : l.get? i = some ' ' := by
          rw [List.get?_take hiw] at hisp
          exact hisp
        have hsplit := eq_take_cons_drop hil hg
        have htoks : tokens l = tokens (l.take i) ++ tokens (l.drop (i + 1)) := by
          conv_lhs => rw [hsplit]
          exact tokens_append_space (l.take i).length (l.take i) (l.drop (i + 1)) (le_refl _)
        have hrec : ∀ t ∈ tokens (l.drop (i + 1)), t.length < w := by
          intro t ht
          apply h
          rw [htoks]
          exact List.mem_append.mpr (Or.inr ht)
        have hflen : (l.drop (i + 1)).length < fuel := by
          rw [List.length_drop]
          omega
        obtain ⟨rest, hrest⟩ := ih (l.drop (i + 1)) w hflen hw hrec
        refine ⟨l.take i :: rest, ?_⟩
        unfold splitLoop
        rw [if_pos hcond, hf]
        simp [hrest]
    · refine ⟨[l], ?_⟩
      unfold splitLoop
      rw [if_neg hcond]

-- Claim C1 (corrected).

/-- Claim C1, counterexample: for `s = " xx"` and `w = 3`, every
space-delimited token of `s` is shorter than `w` and `s` is non-empty,
yet `split_string` returns a line that is empty — refuting the claim's
"none of them empty unless s is empty" guarantee at this input. -/
theorem split_string_empty_line_counterexample :
    (∀ t ∈ tokens [' ', 'x', 'x'], t.length < 3) ∧
    split_string [' ', 'x', 'x'] 3 = some [[], ['x', 'x']] ∧
    ([' ', 'x', 'x'] : List Char) ≠ [] ∧
    ([] : List Char) ∈ [([] : List Char), ['x', 'x']] := by
  decide

/-- Claim C1, amended: for every string `s` and width `w ≥ 1` such that
every space-delimited token of `s` has length `< w`, `split_string s w`
succeeds, every returned line has length at most `w`, and joining the
lines with single spaces reproduces `s` exactly (each break consumes
exactly one space, so no whitespace collapsing occurs); lines may be
empty (e.g. when `s` begins with a space). -/
theorem split_string_wrap_spec (s : List Char) (w : Nat) (hw : 1 ≤ w)
    (h : ∀ t ∈ tokens s, t.length < w) :
    ∃ lines, split_string s w = some lines ∧
      (∀ x ∈ lines, x.length ≤ w) ∧ joinSp lines = s := by
  obtain ⟨lines, hlines⟩ :=
    splitLoop_isSome_of_short_tokens (s.length + 1) s w (Nat.lt_succ_self _) hw h
  refine ⟨lines, hlines, ?_, splitLoop_join _ _ _ _ hlines⟩
  obtain ⟨hw1, hbound⟩ := splitLoop_bound _ _ _ _ hlines
  intro x hx
  have := hbound x hx
  omega

/-- Claim C1, witness: the amended claim at `s = "ab cd"`, `w = 4`. -/
theorem split_string_wrap_witness :
    ∃ lines, split_string ['a', 'b', ' ', 'c', 'd'] 4 = some lines ∧
      (∀ x ∈ lines, x.length ≤ 4) ∧ joinSp lines = ['a', 'b', ' ', 'c', 'd'] :=
  split_string_wrap_spec ['a', 'b', ' ', 'c', 'd'] 4 (by decide) (by decide)

-- Claim C4 (confirmed).

/-- Claim C4: if some space-delimited token of `s` has length at least
`w`, then `split_string s w` fails (the `ValueError`, modeled as
`none`): the wrapper never breaks mid-word. -/
theorem split_string_long_token_fails (s : List Char) (w : Nat)
    (h : ∃ t ∈ tokens s, w ≤ t.length) : split_string s w = none :=
  splitLoop_none_of_long_token (s.length + 1) s w h

/-- Claim C4, witness: `s = "ab cdef"`, `w = 4` (the token `"cdef"` has
length 4). -/
theorem split_string_long_token_witness :
    split_string ['a', 'b', ' ', 'c', 'd', 'e', 'f'] 4 = none :=
  split_string_long_token_fails ['a', 'b', ' ', 'c', 'd', 'e', 'f'] 4 (by decide)

-- Claim C9 (confirmed).

/-- Claim C9: whenever `split_string l w` succeeds, the width is at
least 1 and every returned line has length at most `w - 1`, strictly
below the stated maximum width: non-final lines end before a space found
inside the `w`-character prefix, and the final line is emitted only once
the remaining text has length at most `w - 1`. -/
theorem split_string_strict_bound (l : List Char) (w : Nat) (lines : List (List Char))
    (h : split_string l w = some lines) :
    1 ≤ w ∧ ∀ x ∈ lines, x.length ≤ w - 1 :=
  splitLoop_bound _ _ _ _ h

/-- Claim C9, witness: `split_string "ab cd" 4` returns lines of length
at most 3. -/
theorem split_string_strict_bound_witness :
    1 ≤ 4 ∧ ∀ x ∈ [['a', 'b'], ['c', 'd']], x.length ≤ 4 - 1 :=
  split_string_strict_bound ['a', 'b', ' ', 'c', 'd'] 4 [['a', 'b'], ['c', 'd']] (by decide)

-- Claim C5 (confirmed).

/-- Claim C5: the termination check case-folds and strips quote
characters and surrounding whitespace; with keyword `"bye"`, the inputs
`"bye"`, `"Bye"`, `" \"bye\" "` and `"BYE"` (Python `'BYE'`) all match,
while `"bye bye"` does not. -/
theorem matches_end_examples :
    matches_end ['b', 'y', 'e'] ['b', 'y', 'e'] = true ∧
    matches_end ['B', 'y', 'e'] ['b', 'y', 'e'] = true ∧
    matches_end [' ', '"', 'b', 'y', 'e', '"', ' '] ['b', 'y', 'e'] = true ∧
    matches_end ['B', 'Y', 'E'] ['b', 'y', 'e'] = true ∧
    matches_end ['b', 'y', 'e', ' ', 'b', 'y', 'e'] ['b', 'y', 'e'] = false := by
  decide

-- Claim C10 (confirmed).

/-- Claim C10: the normalization deletes every double-quote and
single-quote character anywhere in the input (not only surrounding
ones): an input matches the keyword exactly when its text, lower-cased,
with all quote characters deleted in one pass, and surrounding
whitespace stripped, equals the keyword.  In particular `do"ne` (a
quote inside the word) terminates a session whose keyword is
`"done"`. -/
theorem matches_end_removes_all_quotes :
    (∀ input keyword : List Char,
        matches_end input keyword = true ↔
          pyStrip ((input.map Char.toLower).filter
            (fun c => !(c == '"' || c == '\''))) = keyword) ∧
    matches_end ['d', 'o', '"', 'n', 'e'] end_keyword = true := by
  constructor
  · intro input keyword
    unfold matches_end normalize_input
    rw [beq_iff_eq, List.filter_filter]
    constructor
    · intro h
      rw [← h]
      congr 1
      apply List.filter_congr
      intro c _
      simp [bne, Bool.not_or, Bool.and_comm]
    · intro h
      rw [← h]
      congr 1
      apply List.filter_congr
      intro c _
      simp [bne, Bool.not_or, Bool.and_comm]
  · decide

-- Claim C6 (confirmed).

/-- Claim C6: `get_transcript` emits, for each message of the history in
order, the prefix `"Student: "` for user messages and `"Patient: "` for
every other role, each message followed by a blank line; in particular
after recording user turn `"hi"` and assistant turn `"ok"` the
transcript is `"Student: hi\n\nPatient: ok\n\n"`. -/
theorem get_transcript_spec :
    get_transcript (([] : List Message) ++ user_line "hi" ++ asst_line "ok") =
      "Student: hi\n\nPatient: ok\n\n" ∧
    (∀ (m : Message) (rest : List Message),
        get_transcript (m :: rest) =
          ((if m.role = "user" then "Student: " else "Patient: ") ++
            (m.content ++ "\n\n")) ++ get_transcript rest) ∧
    get_transcript [] = "" := by
  refine ⟨by decide, ?_, rfl⟩
  intro m rest
  by_cases h : m.role = "user" <;>
    simp [get_transcript, h, String.append_assoc]

-- Claim C3 (confirmed).

/-- Claim C3: for every history length (including zero) the request list
assembled before a generation call has the framing message (the lone
system message built by `new_conversation`) first, the full history in
insertion order in the middle, and the reminder message (a user message)
last; assembly is pure, so the history can be read back unchanged from
the middle of the request. -/
theorem assemble_request_spec (f r : String) (hx : List Message) :
    (assemble_request (new_conversation f) hx (user_line r)).head? =
        some ⟨"system", f⟩ ∧
    (assemble_request (new_conversation f) hx (user_line r)).getLast? =
        some ⟨"user", r⟩ ∧
    ((assemble_request (new_conversation f) hx (user_line r)).drop 1).dropLast = hx ∧
    assemble_request (new_conversation f) hx (user_line r) =
        ⟨"system", f⟩ :: (hx ++ [⟨"user", r⟩]) := by
  refine ⟨rfl, ?_, ?_, by simp [assemble_request, new_conversation, user_line]⟩
  · show (Message.mk "system" f :: (hx ++ [Message.mk "user" r])).getLast? = _
    rw [List.getLast?_cons, List.getLast?_concat]
    rfl
  · show (hx ++ [Message.mk "user" r]).dropLast = hx
    simp

-- Claim C2 (corrected).

/-- Claim C2, counterexample: with an always-failing generation
capability, empty prior history and user input `"hi"`, the loop body
leaves the history at length 1 — the user turn was appended before the
call, so the history length is not the pre-call length 0 — and the
error propagates out of the loop (the script has no handler) instead of
returning to await input. -/
theorem run_turn_failure_counterexample :
    run_turn failGen (new_conversation "f") (user_line "r") [] "hi" =
      Except.error ((), [⟨"user", "hi"⟩]) ∧
    ¬ ([(⟨"user", "hi"⟩ : Message)].length = ([] : List Message).length) := by
  constructor
  · rfl
  · decide

/-- Claim C2, amended: if the generation capability fails mid-turn, the
history at the moment of failure is the prior history with the user
turn already appended — length before plus one, not unchanged — and the
failure propagates out of the dialogue loop as an uncaught error, so
the loop does not return to awaiting input. -/
theorem run_turn_failure_spec {ε : Type} (gen : List Message → Except ε String)
    (fr rem hx : List Message) (input : String) (e : ε)
    (h : gen (assemble_request fr (hx ++ user_line input) rem) = Except.error e) :
    run_turn gen fr rem hx input = Except.error (e, hx ++ user_line input) ∧
    (hx ++ user_line input).length = hx.length + 1 := by
  constructor
  · simp only [run_turn, h]
  · simp [user_line]

/-- Claim C2, witness: the amended claim at a concrete failing call. -/
theorem run_turn_failure_witness :
    run_turn failGen (new_conversation "f") (user_line "r") [] "hi" =
      Except.error ((), ([] : List Message) ++ user_line "hi") ∧
    (([] : List Message) ++ user_line "hi").length = ([] : List Message).length + 1 :=
  run_turn_failure_spec failGen (new_conversation "f") (user_line "r") [] "hi" () rfl

-- Claim C8 (confirmed).

/-- Claim C8: the post-session evaluator issues exactly three
generation requests: (1) the evaluation framing plus the transcript as
a user message; (2) request 1 extended with the summary reply as
assistant and the comparison prompt — which embeds the scenario's
ground-truth summary verbatim — as user; (3) request 2 extended with
the comparison reply as assistant and the final yes/no question as
user.  Each request list extends the previous one. -/
theorem run_evaluation_requests (gen : List Message → String)
    (transcript summary : String) :
    ∃ r1 r2 : String,
      (run_evaluation gen transcript summary).1 =
        [ [⟨"system", eval_framing_text⟩, ⟨"user", transcript⟩],
          [⟨"system", eval_framing_text⟩, ⟨"user", transcript⟩] ++
            [⟨"assistant", r1⟩, ⟨"user", compare_prompt summary⟩],
          ([⟨"system", eval_framing_text⟩, ⟨"user", transcript⟩] ++
            [⟨"assistant", r1⟩, ⟨"user", compare_prompt summary⟩]) ++
            [⟨"assistant", r2⟩, ⟨"user", final_question_text⟩] ] ∧
      (run_evaluation gen transcript summary).1.length = 3 ∧
      (∃ pre post : String, compare_prompt summary = pre ++ summary ++ post) := by
  refine ⟨gen (eval_setup ++ user_line transcript),
    gen (eval_setup ++ user_line transcript ++
      asst_line (gen (eval_setup ++ user_line transcript)) ++
      user_line (compare_prompt summary)), ?_, rfl, ?_⟩
  · rfl
  · exact ⟨"The actual patient summary is as follows:  ",
      " How does the student interaction compare with the actual patient summary?", rfl⟩

-- Weighted-selection lemmas: partial sums, cumulative weights, and
-- `bisect_right` on a sorted list.

theorem wsum_zero (ws : List ℚ) : wsum ws 0 = 0 := rfl

theorem wsum_succ (ws : List ℚ) (i : Nat) (h : i < ws.length) :
    wsum ws (i + 1) = wsum ws i + ws[i] :=
  List.sum_take_succ ws i h

theorem wsum_succ_of_ge (ws : List ℚ) (i : Nat) (h : ws.length ≤ i) :
    wsum ws (i + 1) = wsum ws i := by
  unfold wsum
  rw [List.take_of_length_le h, List.take_of_length_le (by omega)]

theorem wsum_step (ws : List ℚ) (hws : ∀ w ∈ ws, 0 ≤ w) (i : Nat) :
    wsum ws i ≤ wsum ws (i + 1) := by
  by_cases h : i < ws.length
  · rw [wsum_succ ws i h]
    have hnn : 0 ≤ ws[i] := hws _ (ws.getElem_mem h)
    linarith
  · rw [wsum_succ_of_ge ws i (by omega)]

theorem wsum_mono (ws : List ℚ) (hws : ∀ w ∈ ws, 0 ≤ w) {i j : Nat} (h : i ≤ j) :
    wsum ws i ≤ wsum ws j := by
  induction j, h using Nat.le_induction with
  | base => exact le_refl _
  | succ j hij ih => exact le_trans ih (wsum_step ws hws j)

theorem wsum_nonneg (ws : List ℚ) (hws : ∀ w ∈ ws, 0 ≤ w) (i : Nat) :
    0 ≤ wsum ws i :=
  wsum_zero ws ▸ wsum_mono ws hws (Nat.zero_le i)

theorem wsum_length_eq (ws : List ℚ) : wsum ws ws.length = ws.sum := by
  unfold wsum
  rw [List.take_length]

theorem cumWeights_length (ws : List ℚ) : (cumWeights ws).length = ws.length := by
  unfold cumWeights
  rw [List.length_map, List.length_range]

theorem cumWeights_getElem? (ws : List ℚ) (k : Nat) (h : k < ws.length) :
    (cumWeights ws)[k]? = some (wsum ws (k + 1)) := by
  unfold cumWeights
  simp [List.getElem?_map, List.getElem?_range, h]

theorem cumWeights_getLast? (ws : List ℚ) (h : ws ≠ []) :
    (cumWeights ws).getLast? = some ws.sum := by
  have hlen : 0 < ws.length := List.length_pos.mpr h
  rw [List.getLast?_eq_getElem?, cumWeights_length,
    cumWeights_getElem? ws (ws.length - 1) (by omega)]
  congr 1
  have h1 : ws.length - 1 + 1 = ws.length := by omega
  rw [h1, wsum_length_eq]

theorem cumWeights_pairwise (ws : List ℚ) (hws : ∀ w ∈ ws, 0 ≤ w) :
    (cumWeights ws).Pairwise (· ≤ ·) := by
  unfold cumWeights
  rw [List.pairwise_map]
  exact (List.pairwise_lt_range _).imp
    (fun hab => wsum_mono ws hws (by omega))

/-- `countP (· ≤ x)` on a nondecreasing list counts an initial segment:
an entry is `≤ x` exactly when its index is below the count. -/
theorem countP_sorted_spec (x : ℚ) :
    ∀ cs : List ℚ, cs.Pairwise (· ≤ ·) →
      ∀ (k : Nat) (c : ℚ), cs[k]? = some c →
        (c ≤ x ↔ k < cs.countP (fun y => decide (y ≤ x))) := by
  intro cs
  induction cs with
  | nil => intro _ k c h; simp at h
  | cons a cs ih =>
    intro hp k c hk
    have hpa : ∀ y ∈ cs, a ≤ y := (List.pairwise_cons.mp hp).1
    have hptail := (List.pairwise_cons.mp hp).2
    by_cases ha : a ≤ x
    · rw [List.countP_cons_of_pos _ _ (by simpa using ha)]
      cases k with
      | zero =>
        rw [List.getElem?_cons_zero] at hk
        injection hk with hk
        subst hk
        simp [ha]
      | succ k =>
        rw [List.getElem?_cons_succ] at hk
        rw [ih hptail k c hk]
        omega
    · have hzero : cs.countP (fun y => decide (y ≤ x)) = 0 := by
        rw [List.countP_eq_zero]
        intro y hy
        simp only [decide_eq_true_eq]
        intro hyx
        exact ha (le_trans (hpa y hy) hyx)
      rw [List.countP_cons_of_neg _ _ (by simpa using ha), hzero]
      cases k with
      | zero =>
        rw [List.getElem?_cons_zero] at hk
        injection hk with hk
        subst hk
        simp [ha]
      | succ k =>
        rw [List.getElem?_cons_succ] at hk
        constructor
        · intro hcx
          have hcmem : c ∈ cs := by
            obtain ⟨hlt, rfl⟩ := List.getElem?_eq_some.mp hk
            exact cs.getElem_mem hlt
          exact absurd (ha (le_trans (hpa c hcmem) hcx)) (by simp)
        · intro hlt
          exact absurd hlt (by omega)

/-- The drawn index is the unique `i` whose cumulative-weight interval
`[wsum i, wsum (i+1))` contains `u * total`: selection probability
`weight_i / total` under a uniform draw `u ∈ [0, 1)`. -/
theorem choose_patient_idx_iff (patients : List Scenario) (u : ℚ)
    (hu0 : 0 ≤ u) (hu1 : u < 1)
    (hw : ∀ p ∈ patients, 0 ≤ p.prob_wt)
    (hpos : 0 < totalWt patients) (i : Nat) :
    choose_patient_idx patients u = some i ↔
      (i < patients.length ∧
        wsum (weightsOf patients) i ≤ u * totalWt patients ∧
        u * totalWt patients < wsum (weightsOf patients) (i + 1)) := by
  have hwsnn : ∀ w ∈ weightsOf patients, 0 ≤ w := by
    intro w hw2
    obtain ⟨p, hp, rfl⟩ := List.mem_map.mp hw2
    exact hw p hp
  have hlen : (weightsOf patients).length = patients.length := List.length_map _ _
  have hne : patients ≠ [] := by
    intro hnil
    rw [hnil] at hpos
    simp [totalWt, weightsOf] at hpos
  have hwne : weightsOf patients ≠ [] := by
    intro hnil
    rw [hnil] at hlen
    exact hne (List.eq_nil_of_length_eq_zero hlen.symm)
  have hn1 : 1 ≤ patients.length := by
    have := List.length_pos.mpr hne
    omega
  have hns : ¬((weightsOf patients).sum ≤ 0) := not_le.mpr hpos
  have hidx : choose_patient_idx patients u =
      some (bisectR ((cumWeights (weightsOf patients)).take (patients.length - 1))
        (u * totalWt patients)) := by
    simp [choose_patient_idx, cumWeights_getLast? _ hwne, hns, totalWt]
  rw [hidx, Option.some_inj]
  have hx0 : 0 ≤ u * totalWt patients := mul_nonneg hu0 (le_of_lt hpos)
  have hxT : u * totalWt patients < (weightsOf patients).sum := by
    have h1 : u * totalWt patients < 1 * totalWt patients :=
      mul_lt_mul_of_pos_right hu1 hpos
    rw [one_mul] at h1
    exact h1
  set ws := weightsOf patients with hwsdef
  set n := patients.length with hndef
  set cs := (cumWeights ws).take (n - 1) with hcsdef
  have hcs_len : cs.length = n - 1 := by
    rw [hcsdef, List.length_take, cumWeights_length, hlen]
    omega
  have hcs_get : ∀ k, k < n - 1 → cs[k]? = some (wsum ws (k + 1)) := by
    intro k hk
    rw [hcsdef, List.getElem?_take_of_lt hk, cumWeights_getElem? ws k (by omega)]
  have hcs_pw : cs.Pairwise (· ≤ ·) :=
    (cumWeights_pairwise ws hwsnn).sublist (List.take_sublist _ _)
  set x := u * totalWt patients with hxdef
  set j := bisectR cs x with hjdef
  have hj_le : j ≤ n - 1 := by
    have h1 : cs.countP (fun y => decide (y ≤ x)) ≤ cs.length :=
      List.countP_le_length _
    rw [hcs_len] at h1
    exact h1
  have key : ∀ (k : Nat) (c : ℚ), cs[k]? = some c → (c ≤ x ↔ k < j) :=
    countP_sorted_spec x cs hcs_pw
  have hj1 : wsum ws j ≤ x := by
    cases hj : j with
    | zero => exact wsum_zero ws ▸ hx0
    | succ j0 =>
      have hj0 : j0 < n - 1 := by omega
      exact (key j0 _ (hcs_get j0 hj0)).mpr (by omega)
  have hj2 : x < wsum ws (j + 1) := by
    by_cases hjlt : j < n - 1
    · have hnle : ¬(wsum ws (j + 1) ≤ x) := fun hle =>
        absurd ((key j _ (hcs_get j hjlt)).mp hle) (lt_irrefl j)
      exact lt_of_not_le hnle
    · have hj_eq : j = n - 1 := by omega
      have hsucc : j + 1 = n := by omega
      rw [hsucc, ← hlen, wsum_length_eq]
      exact hxT
  have huniq : ∀ i1, i1 < n → wsum ws i1 ≤ x → x < wsum ws (i1 + 1) → i1 = j := by
    intro i1 hi1 hle hlt
    rcases Nat.lt_trichotomy i1 j with hcase | hcase | hcase
    · exfalso
      have h1 : wsum ws (i1 + 1) ≤ wsum ws j := wsum_mono ws hwsnn (by omega)
      linarith
    · exact hcase
    · exfalso
      have h1 : wsum ws (j + 1) ≤ wsum ws i1 := wsum_mono ws hwsnn (by omega)
      linarith
  constructor
  · intro hsome
    subst hsome
    exact ⟨by omega, hj1, hj2⟩
  · rintro ⟨hi, hle, hlt⟩
    exact (huniq i hi hle hlt).symm

theorem choose_patient_empty_eq_none (u : ℚ) : choose_patient [] u = none := rfl

theorem choose_weight_step (patients : List Scenario) (i : Nat) (p : Scenario)
    (hip : patients[i]? = some p) :
    wsum (weightsOf patients) (i + 1) = wsum (weightsOf patients) i + p.prob_wt := by
  have hi : i < patients.length := by
    by_contra hge
    rw [List.getElem?_eq_none (by omega)] at hip
    cases hip
  have hiw : i < (weightsOf patients).length := by
    simpa [weightsOf] using hi
  have hwp : (weightsOf patients)[i] = p.prob_wt := by
    have h1 : (weightsOf patients)[i]? = some p.prob_wt := by
      unfold weightsOf
      rw [List.getElem?_map, hip]
      rfl
    rw [List.getElem?_eq_getElem hiw] at h1
    injection h1
  rw [wsum_succ _ i hiw, hwp]

theorem choose_patient_pos_weight (patients : List Scenario) (u : ℚ) (p : Scenario)
    (hu0 : 0 ≤ u) (hu1 : u < 1)
    (hw : ∀ q ∈ patients, 0 ≤ q.prob_wt)
    (hpos : 0 < totalWt patients)
    (hsel : choose_patient patients u = some p) : 0 < p.prob_wt := by
  unfold choose_patient at hsel
  obtain ⟨j, hj, hpj⟩ := Option.bind_eq_some.mp hsel
  obtain ⟨hjn, hle, hlt⟩ :=
    (choose_patient_idx_iff patients u hu0 hu1 hw hpos j).mp hj
  rw [choose_weight_step patients j p hpj] at hlt
  linarith

theorem choose_patient_idx_set_eq (patients : List Scenario) (i : Nat)
    (hi : i < patients.length)
    (hw : ∀ p ∈ patients, 0 ≤ p.prob_wt)
    (hpos : 0 < totalWt patients) :
    {u : ℚ | 0 ≤ u ∧ u < 1 ∧ choose_patient_idx patients u = some i} =
      Set.Ico (wsum (weightsOf patients) i / totalWt patients)
              (wsum (weightsOf patients) (i + 1) / totalWt patients) := by
  have hwsnn : ∀ w ∈ weightsOf patients, 0 ≤ w := by
    intro w hw2
    obtain ⟨p, hp, rfl⟩ := List.mem_map.mp hw2
    exact hw p hp
  ext u
  simp only [Set.mem_setOf_eq, Set.mem_Ico]
  constructor
  · rintro ⟨hu0, hu1, hsel⟩
    obtain ⟨_, hle, hlt⟩ :=
      (choose_patient_idx_iff patients u hu0 hu1 hw hpos i).mp hsel
    constructor
    · rw [div_le_iff hpos]
      linarith
    · rw [lt_div_iff hpos]
      linarith
  · rintro ⟨hge, hlt⟩
    have hle1 : wsum (weightsOf patients) i ≤ u * totalWt patients := by
      rw [div_le_iff hpos] at hge
      linarith
    have hlt1 : u * totalWt patients < wsum (weightsOf patients) (i + 1) := by
      rw [lt_div_iff hpos] at hlt
      linarith
    have hu0 : 0 ≤ u :=
      le_trans (div_nonneg (wsum_nonneg _ hwsnn i) (le_of_lt hpos)) hge
    have hu1 : u < 1 := by
      have hwsle : wsum (weightsOf patients) (i + 1) ≤ totalWt patients := by
        have h2 : wsum (weightsOf patients) (i + 1) ≤
            wsum (weightsOf patients) (weightsOf patients).length := by
          apply wsum_mono _ hwsnn
          simp only [weightsOf, List.length_map]
          omega
        rw [wsum_length_eq] at h2
        exact h2
      calc u < wsum (weightsOf patients) (i + 1) / totalWt patients := hlt
        _ ≤ 1 := by
          rw [div_le_one hpos]
          exact hwsle
    exact ⟨hu0, hu1,
      (choose_patient_idx_iff patients u hu0 hu1 hw hpos i).mpr ⟨hi, hle1, hlt1⟩⟩

-- Claim C7 (confirmed).

/-- Claim C7: `choose_patient` fails (`none`, modeling the exception
inside `random.choices`) on an empty scenario list; with the random
source made pluggable as an explicit uniform draw `u ∈ [0, 1)` and
nonnegative weights of positive total, it draws index `i` exactly when
`u * total` lies in the cumulative-weight interval
`[wsum i, wsum (i+1))`; that interval has width `weight_i`, so the set
of draws selecting `i` is `[wsum i / total, wsum (i+1) / total)`, of
length `weight_i / total` — the claimed selection probability — and in
particular the selected scenario always has positive weight, so a
zero-weight scenario is never selected when another weight is
positive. -/
theorem choose_patient_spec :
    (∀ u : ℚ, choose_patient [] u = none) ∧
    (∀ (patients : List Scenario) (u : ℚ) (i : Nat),
        0 ≤ u → u < 1 → (∀ p ∈ patients, 0 ≤ p.prob_wt) → 0 < totalWt patients →
        (choose_patient_idx patients u = some i ↔
          (i < patients.length ∧
            wsum (weightsOf patients) i ≤ u * totalWt patients ∧
            u * totalWt patients < wsum (weightsOf patients) (i + 1)))) ∧
    (∀ (patients : List Scenario) (i : Nat) (p : Scenario),
        patients[i]? = some p →
        wsum (weightsOf patients) (i + 1) =
          wsum (weightsOf patients) i + p.prob_wt) ∧
    (∀ (patients : List Scenario) (i : Nat),
        i < patients.length → (∀ p ∈ patients, 0 ≤ p.prob_wt) →
        0 < totalWt patients →
        {u : ℚ | 0 ≤ u ∧ u < 1 ∧ choose_patient_idx patients u = some i} =
          Set.Ico (wsum (weightsOf patients) i / totalWt patients)
                  (wsum (weightsOf patients) (i + 1) / totalWt patients)) ∧
    (∀ (patients : List Scenario) (u : ℚ) (p : Scenario),
        0 ≤ u → u < 1 → (∀ q ∈ patients, 0 ≤ q.prob_wt) → 0 < totalWt patients →
        choose_patient patients u = some p → 0 < p.prob_wt) := by
  refine ⟨choose_patient_empty_eq_none, ?_, ?_, ?_, ?_⟩
  · intro patients u i hu0 hu1 hw hpos
    exact choose_patient_idx_iff patients u hu0 hu1 hw hpos i
  · intro patients i p hip
    exact choose_weight_step patients i p hip
  · intro patients i hi hw hpos
    exact choose_patient_idx_set_eq patients i hi hw hpos
  · intro patients u p hu0 hu1 hw hpos hsel
    exact choose_patient_pos_weight patients u p hu0 hu1 hw hpos hsel

/-- Claim C7, witness: with scenarios weighted 1 and 2 and draw
`u = 1/2`, the characterization puts `u * total = 3/2` in the second
cumulative interval `[1, 3)`, so index 1 is drawn. -/
theorem choose_patient_witness :
    choose_patient_idx [scenA, scenB] (1 / 2) = some 1 :=
  (choose_patient_spec.2.1 [scenA, scenB] (1 / 2) 1 (by norm_num) (by norm_num)
    (by norm_num [scenA, scenB]) (by norm_num [totalWt, weightsOf, scenA, scenB])).mpr
    ⟨by norm_num, by norm_num [wsum, weightsOf, totalWt, scenA, scenB],
      by norm_num [wsum, weightsOf, totalWt, scenA, scenB]⟩
